import Mathlib

/-!
# Verification of the better-cmdk command palette core

Shallow embedding of the store (`src/types/store.ts`), tree utilities
(`src/lib/utils.ts`), search algorithms (`src/lib/search/algorithms.ts`),
prefix trigger (`src/lib/search/usePrefixTrigger.ts`) and keyboard
navigation (`src/lib/useGlobalKeyboardNavigation.ts`), together with
theorems settling the specification claims about them.

Machine conventions: JavaScript numbers used as list indices are embedded
as `Int` where `-1` sentinels occur, otherwise `Nat`; scores are embedded
as `ℚ` (the lexical scorer is kept abstract, see `bestScore`); object
identity (`!==`) is embedded with an explicit allocation counter.
-/

namespace BetterCmdk

/-- `ViewType` from `src/types/core.ts`: `'root' | 'portal' | 'category'`. -/
inductive ViewType where
  | root
  | portal
  | category
deriving DecidableEq, Repr

/-- `SearchAlgorithm` from `src/types/core.ts`: `'commandscore' | 'fuse'`. -/
inductive SearchAlgorithm where
  | commandscore
  | fuse
deriving DecidableEq, Repr

/-- `ViewState` from `src/types/core.ts`; optional fields become `Option`. -/
structure ViewState where
  type : ViewType
  portalId : Option String := none
  categoryId : Option String := none
  query : Option String := none
  showSearchInput : Option Bool := none
deriving DecidableEq, Repr

/-- `scrollTrigger` values of `CommandState` (`'keyboard' | 'auto' | 'hover'`). -/
inductive ScrollTrigger where
  | keyboard
  | auto
  | hover
deriving DecidableEq, Repr

/-- `navigationDirection` values of `CommandState` (`'up' | 'down'`). -/
inductive NavDirection where
  | up
  | down
deriving DecidableEq, Repr

/-- One entry of `CommandState.items` (`Array<{id: string; index: number}>`). -/
structure ItemEntry where
  id : String
  index : Nat
deriving DecidableEq, Repr

/-- `CommandState` from `src/types/store.ts`.  TS optional / nullable fields
become `Option`; the `open` field is a Lean keyword so it is quoted.  The two
opaque config records (`fuseConfig`, `virtualizationConfig`) are embedded as
`Option Unit`: their contents never matter to any claim, only their presence
in the shallow merge. -/
structure CommandState where
  «open» : Bool
  activeId : Option String := none
  loop : Bool := false
  view : ViewState
  history : List ViewState := []
  recentCommands : List String := []
  lastNavigationWasBack : Option Bool := none
  searchLibrary : Option SearchAlgorithm := none
  fuseConfig : Option Unit := none
  virtualization : Option Bool := none
  virtualizationConfig : Option Unit := none
  items : Option (List ItemEntry) := none
  scrollTrigger : Option ScrollTrigger := none
  keyboardNavigationActive : Option Bool := none
  navigationDirection : Option NavDirection := none
deriving DecidableEq, Repr

/-- `Partial<CommandState>`: every field optionally present.  A `some` field
overwrites the old value in the shallow merge `{ ...state, ...partial }`. -/
structure PartialState where
  «open» : Option Bool := none
  activeId : Option (Option String) := none
  loop : Option Bool := none
  view : Option ViewState := none
  history : Option (List ViewState) := none
  recentCommands : Option (List String) := none
  lastNavigationWasBack : Option (Option Bool) := none
  searchLibrary : Option (Option SearchAlgorithm) := none
  fuseConfig : Option (Option Unit) := none
  virtualization : Option (Option Bool) := none
  virtualizationConfig : Option (Option Unit) := none
  items : Option (Option (List ItemEntry)) := none
  scrollTrigger : Option (Option ScrollTrigger) := none
  keyboardNavigationActive : Option (Option Bool) := none
  navigationDirection : Option (Option NavDirection) := none
deriving DecidableEq, Repr

/-- The empty partial `{}`: a `setState({})` call that changes no field. -/
def emptyPartialState : PartialState := {}

/-- The shallow merge `{ ...state, ...partial }` of `setState`
(`store.ts` line 252). -/
def mergeState (s : CommandState) (p : PartialState) : CommandState where
  «open» := p.«open».getD s.«open»
  activeId := p.activeId.getD s.activeId
  loop := p.loop.getD s.loop
  view := p.view.getD s.view
  history := p.history.getD s.history
  recentCommands := p.recentCommands.getD s.recentCommands
  lastNavigationWasBack := p.lastNavigationWasBack.getD s.lastNavigationWasBack
  searchLibrary := p.searchLibrary.getD s.searchLibrary
  fuseConfig := p.fuseConfig.getD s.fuseConfig
  virtualization := p.virtualization.getD s.virtualization
  virtualizationConfig := p.virtualizationConfig.getD s.virtualizationConfig
  items := p.items.getD s.items
  scrollTrigger := p.scrollTrigger.getD s.scrollTrigger
  keyboardNavigationActive := p.keyboardNavigationActive.getD s.keyboardNavigationActive
  navigationDirection := p.navigationDirection.getD s.navigationDirection

/-- A store cell: the current `CommandState` value plus an allocation tag
modelling JavaScript object identity.  `state = { ...state, ...partial }`
always allocates a fresh object, embedded as incrementing `ref`. -/
structure StoreCell where
  state : CommandState
  ref : Nat
deriving DecidableEq, Repr

/-- Result of one `setState` call: the new cell and whether
`notifySubscribers()` was invoked (`store.ts` lines 249-258).  The guard is
the source's `oldState !== state`, i.e. reference inequality of the old and
the freshly allocated merged object. -/
def setState (p : PartialState) (c : StoreCell) : StoreCell × Bool :=
  let oldRef := c.ref
  let newCell : StoreCell := ⟨mergeState c.state p, c.ref + 1⟩
  (newCell, decide (oldRef ≠ newCell.ref))

/-- `navigate` (`store.ts` lines 273-280): one `setState` call pushing the
current view onto `history` (at the array end) and replacing `view`. -/
def navigate (newView : ViewState) (s : CommandState) : CommandState :=
  mergeState s { view := some newView, history := some (s.history ++ [s.view]) }

/-- `goBack` (`store.ts` lines 296-321).  Returns the source's boolean result
together with the state after the single `setState` call.  The source reads
`history[history.length - 1]` (embedded `getLast?`); its falsy re-check on
`previousView` can only fire on an empty history, which the first guard
already handled. -/
def goBack (s : CommandState) : Bool × CommandState :=
  if s.history.length = 0 then (false, s)
  else
    match s.history.getLast? with
    | none => (false, s)
    | some previousView =>
        (true,
          mergeState s
            { view := some previousView,
              history := some s.history.dropLast,
              lastNavigationWasBack := some (some true) })

/-- `MAX_RECENT_COMMANDS` from `src/lib/storage.ts` (line 8). -/
def MAX_RECENT_COMMANDS : Nat := 10

/-- `addRecentCommand` (`store.ts` lines 365-377): filter the id out, cons it
at the front, truncate to 10, one `setState` call.  The asynchronous
`saveRecentCommands` write is fire-and-forget and never affects the
in-memory state (`storage.ts` catches all failures), so it has no footprint
in the state embedding. -/
def addRecentCommand (commandId : String) (s : CommandState) : CommandState :=
  let current := s.recentCommands
  let withoutThis := current.filter (fun id => id ≠ commandId)
  let updated := (commandId :: withoutThis).take MAX_RECENT_COMMANDS
  mergeState s { recentCommands := some updated }

/-- `init` (`store.ts` lines 334-354), with the two asynchronous loads
(`loadSearchLibrary`, `loadRecentCommands`) passed in as arguments: the
source stores the loaded recent-commands list verbatim via
`setState({ recentCommands })`, with no deduplication or truncation. -/
def initStore (savedSearchLibrary : Option SearchAlgorithm)
    (loadedRecent : List String) (enableRecent : Bool)
    (s : CommandState) : CommandState :=
  let searchLibrary :=
    match savedSearchLibrary with
    | some l => some l
    | none => s.searchLibrary
  let s1 :=
    if searchLibrary ≠ s.searchLibrary then
      mergeState s { searchLibrary := some searchLibrary }
    else s
  if enableRecent then mergeState s1 { recentCommands := some loadedRecent }
  else s1

/-- Event-loop world for the notification discipline of
`notifySubscribers` (`store.ts` lines 196-221): each call queues one fresh
microtask (`queueMicrotask`) whose body iterates over all current
subscribers and invokes each callback once.  `subscriberCount` counts the
live subscribers (all with non-throwing callbacks, so none get dropped);
`queuedPasses` counts notification microtasks queued and not yet run;
`callbackRuns` counts subscriber-callback invocations so far. -/
structure NotifyWorld where
  cell : StoreCell
  subscriberCount : Nat
  queuedPasses : Nat
  callbackRuns : Nat
deriving DecidableEq, Repr

/-- One `setState` call at world level: merge the state and, when the
`oldState !== state` guard passes, call `notifySubscribers`, which queues
one notification microtask. -/
def setStateW (p : PartialState) (w : NotifyWorld) : NotifyWorld :=
  let r := setState p w.cell
  { w with
    cell := r.1
    queuedPasses := w.queuedPasses + (if r.2 then 1 else 0) }

/-- Run all queued microtasks at the end of the current task: each queued
pass iterates `subscribers.forEach`, invoking every live callback once. -/
def drainMicrotasks (w : NotifyWorld) : NotifyWorld :=
  { w with
    queuedPasses := 0
    callbackRuns := w.callbackRuns + w.queuedPasses * w.subscriberCount }

/-- A burst of synchronous `setState` calls within one task. -/
def setStateBurst (ps : List PartialState) (w : NotifyWorld) : NotifyWorld :=
  ps.foldl (fun w p => setStateW p w) w

/-- Tag of the `Command` discriminated union (`src/types/core.ts`). -/
inductive CommandType where
  | action
  | portal
  | category
deriving DecidableEq, Repr

/-- A `Command` node (`src/types/core.ts`): the three union variants share
`id`, `name`, `keywords`; `prefixes` exists on actions and portals,
`showSearchInput` on portals, `children` on categories.  The embedding is a
single node shape; `prefixesOf` / `childrenOf` below encode which variants
carry which property (reads of an absent TS property yield `undefined`,
i.e. the empty list).  The `execute` side effect of actions is embedded
separately as an environment (see `ExecEnv`). -/
inductive Command where
  | node (id : String) (name : String) (keywords : List String)
      (ctype : CommandType) (prefixes : List String)
      (showSearchInput : Option Bool) (children : List Command)

def Command.id : Command → String
  | .node i _ _ _ _ _ _ => i

def Command.name : Command → String
  | .node _ n _ _ _ _ _ => n

def Command.keywords : Command → List String
  | .node _ _ k _ _ _ _ => k

def Command.ctype : Command → CommandType
  | .node _ _ _ t _ _ _ => t

def Command.showSearchInput : Command → Option Bool
  | .node _ _ _ _ _ s _ => s

/-- The `prefixes` property as read on a `Command` union value: only action
and portal variants carry it (`undefined`, i.e. `[]`, on categories). -/
def Command.prefixesOf : Command → List String
  | .node _ _ _ t p _ _ =>
    match t with
    | .category => []
    | _ => p

/-- The `children` property as read on a `Command` union value: only the
category variant carries it. -/
def Command.childrenOf : Command → List Command
  | .node _ _ _ t _ _ c =>
    match t with
    | .category => c
    | _ => []

/-- The children list of a node is smaller than the node itself (for
termination of the tree traversals). -/
theorem Command.sizeOf_childrenOf_lt (c : Command) :
    sizeOf c.childrenOf < sizeOf c := by
  cases c with
  | node i n k t p s ch =>
    cases t <;> simp [Command.childrenOf] <;> omega

/-- Termination helper: the children of the head are smaller than the whole
cons cell. -/
theorem sizeOf_childrenOf_lt_cons (c : Command) (rest : List Command) :
    sizeOf c.childrenOf < sizeOf (c :: rest) := by
  have h := Command.sizeOf_childrenOf_lt c
  simp only [List.cons.sizeOf_spec]
  omega

/-- Termination helper: the tail is smaller than the whole cons cell. -/
theorem sizeOf_tail_lt_cons (c : Command) (rest : List Command) :
    sizeOf rest < sizeOf (c :: rest) := by
  simp only [List.cons.sizeOf_spec]
  have h : 0 < sizeOf c := by cases c; simp
  omega

/-- The inner `recurse` of `flattenNavigables` (`src/lib/utils.ts` lines
286-295): push each item onto the accumulated `result`, then recurse into a
non-empty `children` list before moving on to the rest. -/
def flattenRecurse : List Command → List Command → List Command
  | [], acc => acc
  | c :: rest, acc =>
      let acc1 := acc ++ [c]
      let acc2 :=
        if 0 < c.childrenOf.length then flattenRecurse c.childrenOf acc1
        else acc1
      flattenRecurse rest acc2
termination_by l _ => sizeOf l
decreasing_by
  all_goals
    first
      | exact sizeOf_childrenOf_lt_cons _ _
      | exact sizeOf_tail_lt_cons _ _

/-- `flattenNavigables` (`src/lib/utils.ts` lines 270-299). -/
def flattenNavigables (navigables : List Command) : List Command :=
  flattenRecurse navigables []

/-- The accumulator-free pre-order traversal: parent first, then its
children's flattening, then the remaining siblings. -/
def preOrderFlatten : List Command → List Command
  | [] => []
  | c :: rest => c :: (preOrderFlatten c.childrenOf ++ preOrderFlatten rest)
termination_by l => sizeOf l
decreasing_by
  all_goals
    first
      | exact sizeOf_childrenOf_lt_cons _ _
      | exact sizeOf_tail_lt_cons _ _

/-- `findNavigableById` (`src/lib/utils.ts` lines 241-256): return the item
if its id matches, otherwise search its children, otherwise continue with
the remaining siblings. -/
def findNavigableById (id : String) : List Command → Option Command
  | [] => none
  | item :: rest =>
      if item.id = id then some item
      else
        match findNavigableById id item.childrenOf with
        | some found => some found
        | none => findNavigableById id rest
termination_by l => sizeOf l
decreasing_by
  all_goals
    first
      | exact sizeOf_childrenOf_lt_cons _ _
      | exact sizeOf_tail_lt_cons _ _

/-- `findCommandById`, the local pre-order lookup inside `selectCommand`
(`store.ts` lines 393-406); structurally the same search as
`findNavigableById` but defined separately in the source. -/
def findCommandById (id : String) : List Command → Option Command
  | [] => none
  | item :: rest =>
      if item.id = id then some item
      else
        match findCommandById id item.childrenOf with
        | some found => some found
        | none => findCommandById id rest
termination_by l => sizeOf l
decreasing_by
  all_goals
    first
      | exact sizeOf_childrenOf_lt_cons _ _
      | exact sizeOf_tail_lt_cons _ _

/-- `findCommandForPrefix` from `usePrefixTrigger.ts` (lines 64-79): return
the first node (pre-order) whose `prefixes` list contains the candidate
token, searching children after the node itself.  Renamed to `Shortcut`
for the Lean development. -/
def findCommandForShortcut (tok : String) : List Command → Option Command
  | [] => none
  | item :: rest =>
      if tok ∈ item.prefixesOf then some item
      else
        match findCommandForShortcut tok item.childrenOf with
        | some found => some found
        | none => findCommandForShortcut tok rest
termination_by l => sizeOf l
decreasing_by
  all_goals
    first
      | exact sizeOf_childrenOf_lt_cons _ _
      | exact sizeOf_tail_lt_cons _ _

/-- Number of nodes in a forest (each node counted once). -/
def countNodes : List Command → Nat
  | [] => 0
  | c :: rest => 1 + countNodes c.childrenOf + countNodes rest
termination_by l => sizeOf l
decreasing_by
  all_goals
    first
      | exact sizeOf_childrenOf_lt_cons _ _
      | exact sizeOf_tail_lt_cons _ _

/-- `OccursIn c ts`: the node `c` occurs somewhere in the forest `ts`
(directly, or nested inside a member's children). -/
inductive OccursIn (c : Command) : List Command → Prop where
  | here (rest : List Command) : OccursIn c (c :: rest)
  | there (d : Command) (rest : List Command) :
      OccursIn c rest → OccursIn c (d :: rest)
  | child (d : Command) (rest : List Command) :
      OccursIn c d.childrenOf → OccursIn c (d :: rest)

/-- Outcome of one run of the `usePrefixTrigger` effect body: whether
`setState({ lastNavigationWasBack: false })` was issued, the new value of
`lastQueryRef.current`, and the `selectCommand(id, onClose)` invocation (id
together with the `onClose` argument passed through), if any. -/
structure TriggerResult (α : Type) where
  clearedBackFlag : Bool
  newLastQuery : String
  fired : Option (String × α)
deriving DecidableEq, Repr

/-- The JavaScript `query.endsWith(' ')` test, embedded over the string's
character list: the last character is a space. -/
def endsWithSpace (s : String) : Bool := s.data.getLast? == some ' '

/-- The JavaScript `query.trim()`: strip whitespace from both ends,
embedded over the string's character list. -/
def jsTrim (s : String) : String :=
  ⟨((s.data.dropWhile Char.isWhitespace).reverse.dropWhile
      Char.isWhitespace).reverse⟩

/-- The effect body of `usePrefixTrigger` (`usePrefixTrigger.ts` lines
30-90), with the store state's `lastNavigationWasBack` flag, the ref cell
`lastQueryRef.current` and the observed `query` as inputs.  The back flag is
a TS `boolean | undefined` tested for truthiness. -/
def prefixTriggerStep {α : Type} (back : Option Bool) (lastQuery query : String)
    (tree : List Command) (onClose : α) : TriggerResult α :=
  if back = some true then ⟨true, lastQuery, none⟩
  else if query = lastQuery then ⟨false, lastQuery, none⟩
  else
    if query = "" ∨ ¬ endsWithSpace query then ⟨false, query, none⟩
    else
      let tok := jsTrim query
      if tok = "" then ⟨false, query, none⟩
      else
        match findCommandForShortcut tok tree with
        | some matchingCommand => ⟨false, query, some (matchingCommand.id, onClose)⟩
        | none => ⟨false, query, none⟩

/-- The per-item score of `searchWithCommandScore` (`algorithms.ts` lines
247-268): best of the `commandScore` of the name, each keyword, and (for
actions and portals) each prefix string.  The third-party `commandScore`
formula is kept abstract as the argument `cs`. -/
def bestScore (cs : String → String → ℚ) (item : Command) (query : String) : ℚ :=
  let score0 := cs item.name query
  let score1 :=
    if item.keywords.length ≠ 0 then
      item.keywords.foldl (fun acc kw => max acc (cs kw query)) score0
    else score0
  if (item.ctype = .action ∨ item.ctype = .portal) ∧ item.prefixesOf.length ≠ 0
  then item.prefixesOf.foldl (fun acc pr => max acc (cs pr query)) score1
  else score1

/-- Stable insertion of a scored entry into a non-increasing scored list:
keep moving past strictly greater scores, so an inserted entry lands before
every equal-scored entry that followed it in the input. -/
def insertScoredDesc (x : Command × ℚ) : List (Command × ℚ) → List (Command × ℚ)
  | [] => [x]
  | y :: ys => if x.2 < y.2 then y :: insertScoredDesc x ys else x :: y :: ys

/-- The ECMAScript `sort((a, b) => b.score - a.score)` on the scored array:
`Array.prototype.sort` is required to be stable, and with this comparator it
produces the unique stable non-increasing reordering, realized here as a
stable insertion sort. -/
def sortScoredDesc : List (Command × ℚ) → List (Command × ℚ)
  | [] => []
  | x :: xs => insertScoredDesc x (sortScoredDesc xs)

/-- The scored pipeline of `searchWithCommandScore` (`algorithms.ts` lines
242-275) up to the final projection: score every item, keep scores `≥ 0.1`,
sort descending (stably), truncate to `maxResults`. -/
def commandScorePairs (cs : String → String → ℚ) (items : List Command)
    (query : String) (maxResults : Nat) : List (Command × ℚ) :=
  let scoredItems := items.map (fun item => (item, bestScore cs item query))
  (sortScoredDesc (scoredItems.filter (fun sc => (1 : ℚ)/10 ≤ sc.2))).take maxResults

/-- `searchWithCommandScore` (`algorithms.ts` lines 242-275). -/
def searchWithCommandScore (cs : String → String → ℚ) (items : List Command)
    (query : String) (maxResults : Nat) : List Command :=
  (commandScorePairs cs items query maxResults).map (fun sc => sc.1)

/-- The searchable strings contributed by one item to the fuse index
(`algorithms.ts` lines 194-209): its name, its keywords, and (for actions
and portals) its prefixes, registered in that order. -/
def itemStrings (item : Command) : List String :=
  item.name ::
    (item.keywords ++
      (if item.ctype = .action ∨ item.ctype = .portal then item.prefixesOf
       else []))

/-- One `Map.set` on the string-to-item map, embedded as updating a lookup
function.  The stored value is the owning item, represented by its position
in the `items` array (JavaScript `Map` values are object references, and
each array position is a distinct object). -/
def mapSet (m : String → Option Nat) (key : String) (idx : Nat) :
    String → Option Nat :=
  fun q => if q = key then some idx else m q

/-- All the `Map.set` calls of one item, in source order. -/
def mapSetAll (m : String → Option Nat) (idx : Nat) (strs : List String) :
    String → Option Nat :=
  strs.foldl (fun m' s => mapSet m' s idx) m

/-- `stringToItemMap` of `searchWithFuse` (`algorithms.ts` lines 202-209):
`items.forEach` registering name, keywords and prefixes; a later `set` on
the same string overwrites the earlier binding. -/
def stringToItemMap (items : List Command) : String → Option Nat :=
  items.enum.foldl (fun m e => mapSetAll m e.1 (itemStrings e.2))
    (fun _ => none)

/-- The mapping-back loop of `searchWithFuse` (`algorithms.ts` lines
218-231) over the abstract fuse output `rs` (matched string together with
the library's distance-like score): look each matched string up in
`stringToItemMap`, skip strings whose owner was already matched
(`matchedItems` is a `Set` of item references, i.e. of positions), convert
the score via `clamp(1 - score, 0, 1)` and emit the scored item. -/
def fuseMapBack (items : List Command) : List (String × ℚ) → List Nat →
    List (Command × ℚ)
  | [], _ => []
  | (s, d) :: rest, matched =>
      match stringToItemMap items s with
      | none => fuseMapBack items rest matched
      | some idx =>
          if idx ∈ matched then fuseMapBack items rest matched
          else
            match items.get? idx with
            | none => fuseMapBack items rest matched
            | some item =>
                (item, max 0 (min 1 (1 - d))) ::
                  fuseMapBack items rest (idx :: matched)

/-- Keyboard inputs distinguished by `useGlobalKeyboardNavigation.ts`:
`isNavigationKey` recognizes `ArrowUp`, `ArrowDown` and `Enter`; every
other key is `other`. -/
inductive KeyInput where
  | arrowUp
  | arrowDown
  | enter
  | other
deriving DecidableEq, Repr

/-- `isNavigationKey` (`useGlobalKeyboardNavigation.ts` lines 51-53). -/
def isNavigationKey : KeyInput → Bool
  | .other => false
  | _ => true

/-- `calculateNextIndex` (`useGlobalKeyboardNavigation.ts` lines 58-77).
`currentIndex` is a JavaScript number that can be the `findIndex` sentinel
`-1`, hence `Int`. -/
def calculateNextIndex (currentIndex : Int) (key : KeyInput)
    (itemsLength : Nat) (loop : Bool) : Int :=
  if key = .arrowDown then
    if currentIndex < (itemsLength : Int) - 1 then currentIndex + 1
    else if loop then 0 else currentIndex
  else
    if currentIndex > 0 then currentIndex - 1
    else if loop then (itemsLength : Int) - 1 else currentIndex

/-- What one `handleGlobalKeyDown` run does to the store: nothing (no
`setState`, hence no notification), a `selectCommand(id)` call, or a
`setState` moving the active selection to `id`. -/
inductive NavAction where
  | noop
  | select (id : String)
  | move (id : String) (direction : NavDirection)
deriving DecidableEq, Repr

/-- `handleGlobalKeyDown` (`useGlobalKeyboardNavigation.ts` lines 80-158):
ignore text-input targets and non-navigation keys; with an empty item list
do nothing; otherwise locate `activeId` (`findIndex`, `-1` when the id is
falsy or absent), select on `Enter` with a valid index, else compute the
next index and move, unless the guard `newIndex === currentIndex ||
newIndex < 0 || newIndex >= items.length` makes it a no-op. -/
def handleGlobalKeyDown (targetIsInput : Bool) (key : KeyInput)
    (state : CommandState) : NavAction :=
  if targetIsInput then .noop
  else if ¬ isNavigationKey key then .noop
  else
    let items := state.items.getD []
    if items.length = 0 then .noop
    else
      let currentIndex : Int :=
        match state.activeId with
        | some a =>
            if a ≠ "" then
              match items.findIdx? (fun item => item.id = a) with
              | some i => (i : Int)
              | none => -1
            else -1
        | none => -1
      if key = .enter ∧ currentIndex ≥ 0 then
        match items.get? currentIndex.toNat with
        | some currentItem => .select currentItem.id
        | none => .noop
      else
        let newIndex := calculateNextIndex currentIndex key items.length state.loop
        if newIndex = currentIndex ∨ newIndex < 0 ∨ newIndex ≥ (items.length : Int)
        then .noop
        else
          match items.get? newIndex.toNat with
          | none => .noop
          | some targetItem =>
              .move targetItem.id
                (if key = .arrowDown then .down else .up)

/-- Result of an action's user-supplied `execute` callback: normal
completion or a thrown/rejected error. -/
inductive ExecResult where
  | ok
  | throws
deriving DecidableEq, Repr

/-- `selectCommand` (`store.ts` lines 388-445): resolve the id via the local
pre-order lookup; silently no-op when unresolved; inside the `try` block
record it as most recent (when enabled), then dispatch on the variant.  The
`execute` callbacks are supplied as the environment `env`; the second
component reports whether `onClose` was invoked (only after an action's
`execute` completed normally).  A thrown `execute` is swallowed by the
surrounding `catch`, so the function always returns normally. -/
def selectCommand (tree : List Command) (env : String → ExecResult)
    (enableRecent : Bool) (commandId : String) (s : CommandState) :
    CommandState × Bool :=
  match findCommandById commandId tree with
  | none => (s, false)
  | some command =>
      let s1 := if enableRecent then addRecentCommand commandId s else s
      match command.ctype with
      | .action =>
          match env commandId with
          | .ok => (s1, true)
          | .throws => (s1, false)
      | .category =>
          (navigate
            { type := .category, categoryId := some commandId,
              query := some "" } s1, false)
      | .portal =>
          (navigate
            { type := .portal, portalId := some commandId, query := some "",
              showSearchInput := command.showSearchInput } s1, false)

/-- Position of the last item (in input order) owning the string `q`, the
specification-side description of what the overwriting `Map.set` calls
leave behind. -/
def lastOwnerIdx (items : List Command) (q : String) : Option Nat :=
  match items with
  | [] => none
  | c :: rest =>
      match lastOwnerIdx rest q with
      | some i => some (i + 1)
      | none => if q ∈ itemStrings c then some 0 else none

section Fixtures

/-- Concrete root view used by the concrete instances below. -/
def exView : ViewState := { type := .root }

/-- Concrete freshly created store state. -/
def exState : CommandState := { «open» := true, view := exView }

/-- Concrete notification world: one live subscriber, nothing queued. -/
def exWorld : NotifyWorld :=
  { cell := ⟨exState, 0⟩, subscriberCount := 1, queuedPasses := 0,
    callbackRuns := 0 }

/-- Two distinct action commands sharing the searchable name `"x"`. -/
def cmdA : Command := .node "a" "x" [] .action [] none []

def cmdB : Command := .node "b" "x" [] .action [] none []

/-- The calculator portal of the spec scenario, with shortcut `!calc`. -/
def calcPortal : Command :=
  .node "calculator" "Calculator" [] .portal ["!calc"] none []

def devAction : Command := .node "devtools" "Open DevTools" [] .action [] none []

/-- The spec scenario tree: a category containing an action, plus a portal. -/
def exTree : List Command :=
  [.node "dev-tools" "Dev Tools" [] .category [] none [devAction], calcPortal]

end Fixtures

/-- Concrete navigation state: two items, the last one active, no loop. -/
def exNavState : CommandState :=
  { «open» := true, view := exView, activeId := some "i2", loop := false,
    items := some [⟨"i1", 0⟩, ⟨"i2", 1⟩] }

section StoreLemmas

/-- Merging the empty partial reproduces the same state value (the merged
object is structurally identical, only its identity is fresh). -/
theorem mergeState_empty (s : CommandState) : mergeState s emptyPartialState = s := by
  cases s
  simp [mergeState, emptyPartialState]

/-- `setState` always reports a fresh reference: the spread allocates. -/
theorem setState_snd (p : PartialState) (c : StoreCell) :
    (setState p c).2 = true := by
  simp [setState]

/-- The recent-commands list after `addRecentCommand`. -/
theorem addRecentCommand_recentCommands (id : String) (s : CommandState) :
    (addRecentCommand id s).recentCommands =
      (id :: s.recentCommands.filter (fun x => x ≠ id)).take 10 := by
  simp [addRecentCommand, mergeState, MAX_RECENT_COMMANDS]

theorem recent_length_le (id : String) (s : CommandState) :
    (addRecentCommand id s).recentCommands.length ≤ 10 := by
  rw [addRecentCommand_recentCommands]
  exact List.length_take_le 10 _

theorem recent_nodup (id : String) (s : CommandState)
    (h : s.recentCommands.Nodup) :
    (addRecentCommand id s).recentCommands.Nodup := by
  rw [addRecentCommand_recentCommands]
  refine List.Nodup.sublist (List.take_sublist _ _) ?_
  refine List.nodup_cons.mpr ⟨?_, List.Nodup.filter _ h⟩
  intro hmem
  have := List.of_mem_filter hmem
  simp at this

theorem recent_head (id : String) (s : CommandState) :
    (addRecentCommand id s).recentCommands.head? = some id := by
  rw [addRecentCommand_recentCommands]
  rfl

theorem recent_count (id : String) (s : CommandState) :
    (addRecentCommand id s).recentCommands.count id = 1 := by
  rw [addRecentCommand_recentCommands]
  rw [List.take_succ_cons, List.count_cons_self]
  have h0 : ((s.recentCommands.filter (fun x => x ≠ id)).take 9).count id = 0 := by
    refine Nat.le_zero.mp ?_
    calc ((s.recentCommands.filter (fun x => x ≠ id)).take 9).count id
        ≤ (s.recentCommands.filter (fun x => x ≠ id)).count id :=
          (List.take_sublist _ _).count_le id
      _ = 0 := by
          refine List.count_eq_zero.mpr ?_
          intro hmem
          have := List.of_mem_filter hmem
          simp at this
  omega

theorem recent_idem (id : String) (s : CommandState) :
    (addRecentCommand id (addRecentCommand id s)).recentCommands =
      (addRecentCommand id s).recentCommands := by
  rw [addRecentCommand_recentCommands, addRecentCommand_recentCommands,
    List.take_succ_cons]
  congr 1
  have hfil :
      ((id :: ((s.recentCommands.filter (fun x => x ≠ id)).take 9)).filter
        (fun x => x ≠ id)) = (s.recentCommands.filter (fun x => x ≠ id)).take 9 := by
    rw [List.filter_cons]
    simp only [decide_not, decide_eq_true_eq]
    rw [if_neg (by simp)]
    refine List.filter_eq_self.mpr ?_
    intro a ha
    have := List.of_mem_filter (List.mem_of_mem_take ha)
    simpa using this
  rw [List.take_succ_cons, hfil, List.take_take]
  simp

/-- `initStore` stores the loaded list verbatim when recents are enabled. -/
theorem initStore_recentCommands_enabled (saved : Option SearchAlgorithm)
    (loaded : List String) (s : CommandState) :
    (initStore saved loaded true s).recentCommands = loaded := by
  unfold initStore
  split <;> simp [mergeState]

/-- `initStore` leaves the list untouched when recents are disabled. -/
theorem initStore_recentCommands_disabled (saved : Option SearchAlgorithm)
    (loaded : List String) (s : CommandState) :
    (initStore saved loaded false s).recentCommands = s.recentCommands := by
  unfold initStore
  cases saved <;> (simp [mergeState]; try (split <;> simp [mergeState]))

/-- Each world-level `setState` queues exactly one notification pass and
touches nothing else. -/
theorem setStateW_spec (p : PartialState) (w : NotifyWorld) :
    (setStateW p w).queuedPasses = w.queuedPasses + 1 ∧
    (setStateW p w).subscriberCount = w.subscriberCount ∧
    (setStateW p w).callbackRuns = w.callbackRuns := by
  simp [setStateW, setState]

theorem setStateBurst_spec (ps : List PartialState) (w : NotifyWorld) :
    (setStateBurst ps w).queuedPasses = w.queuedPasses + ps.length ∧
    (setStateBurst ps w).subscriberCount = w.subscriberCount ∧
    (setStateBurst ps w).callbackRuns = w.callbackRuns := by
  induction ps generalizing w with
  | nil => simp [setStateBurst]
  | cons p rest ih =>
      obtain ⟨h1, h2, h3⟩ := setStateW_spec p w
      obtain ⟨g1, g2, g3⟩ := ih (setStateW p w)
      simp only [setStateBurst, List.foldl_cons] at g1 g2 g3 ⊢
      rw [List.length_cons]
      exact ⟨by omega, by omega, by omega⟩

end StoreLemmas

section TreeLemmas

/-- The accumulator recursion of the source `flattenNavigables` computes the
canonical pre-order traversal appended to the accumulator. -/
theorem flattenRecurse_eq : ∀ (l acc : List Command),
    flattenRecurse l acc = acc ++ preOrderFlatten l
  | [], acc => by simp [flattenRecurse, preOrderFlatten]
  | c :: rest, acc => by
      have ihc := flattenRecurse_eq c.childrenOf (acc ++ [c])
      have ihr := fun acc2 => flattenRecurse_eq rest acc2
      by_cases h : 0 < c.childrenOf.length
      · simp only [flattenRecurse, if_pos h]
        rw [ihc, ihr, preOrderFlatten]
        simp
      · have hch : c.childrenOf = [] := by
          cases hc : c.childrenOf with
          | nil => rfl
          | cons a b => rw [hc] at h; simp at h
        simp only [flattenRecurse, if_neg h]
        rw [ihr, preOrderFlatten, hch]
        simp [preOrderFlatten]
termination_by l _ => sizeOf l
decreasing_by
  all_goals
    first
      | exact sizeOf_childrenOf_lt_cons _ _
      | exact sizeOf_tail_lt_cons _ _

/-- `flattenNavigables` is the canonical pre-order traversal: each node is
emitted before its (flattened) children, which precede the later siblings. -/
theorem flattenNavigables_eq_preOrder (ts : List Command) :
    flattenNavigables ts = preOrderFlatten ts := by
  rw [flattenNavigables, flattenRecurse_eq]
  simp

/-- The source pre-order id search agrees with `find?` over the pre-order
flattening: it returns the first flattened node carrying the id. -/
theorem findNavigableById_eq_find? (i : String) : ∀ ts : List Command,
    findNavigableById i ts = (preOrderFlatten ts).find? (fun c => c.id = i)
  | [] => by simp [findNavigableById, preOrderFlatten]
  | item :: rest => by
      have ihc := findNavigableById_eq_find? i item.childrenOf
      have ihr := findNavigableById_eq_find? i rest
      by_cases h : item.id = i
      · simp [findNavigableById, preOrderFlatten, h]
      · simp only [findNavigableById, if_neg h, preOrderFlatten]
        rw [List.find?_cons_of_neg _ (by simp [h]), List.find?_append,
          ihc, ihr]
        cases (preOrderFlatten item.childrenOf).find? (fun c => c.id = i) <;>
          simp
termination_by ts => sizeOf ts
decreasing_by
  all_goals
    first
      | exact sizeOf_childrenOf_lt_cons _ _
      | exact sizeOf_tail_lt_cons _ _

/-- The store-local `findCommandById` computes the same pre-order search. -/
theorem findCommandById_eq_find? (i : String) : ∀ ts : List Command,
    findCommandById i ts = (preOrderFlatten ts).find? (fun c => c.id = i)
  | [] => by simp [findCommandById, preOrderFlatten]
  | item :: rest => by
      have ihc := findCommandById_eq_find? i item.childrenOf
      have ihr := findCommandById_eq_find? i rest
      by_cases h : item.id = i
      · simp [findCommandById, preOrderFlatten, h]
      · simp only [findCommandById, if_neg h, preOrderFlatten]
        rw [List.find?_cons_of_neg _ (by simp [h]), List.find?_append,
          ihc, ihr]
        cases (preOrderFlatten item.childrenOf).find? (fun c => c.id = i) <;>
          simp
termination_by ts => sizeOf ts
decreasing_by
  all_goals
    first
      | exact sizeOf_childrenOf_lt_cons _ _
      | exact sizeOf_tail_lt_cons _ _

/-- The shortcut search of the prefix trigger agrees with `find?` over the
pre-order flattening: it returns the first node (pre-order) whose prefixes
contain the token. -/
theorem findCommandForShortcut_eq_find? (tok : String) : ∀ ts : List Command,
    findCommandForShortcut tok ts =
      (preOrderFlatten ts).find? (fun c => tok ∈ c.prefixesOf)
  | [] => by simp [findCommandForShortcut, preOrderFlatten]
  | item :: rest => by
      have ihc := findCommandForShortcut_eq_find? tok item.childrenOf
      have ihr := findCommandForShortcut_eq_find? tok rest
      by_cases h : tok ∈ item.prefixesOf
      · simp [findCommandForShortcut, preOrderFlatten, h]
      · simp only [findCommandForShortcut, if_neg h, preOrderFlatten]
        rw [List.find?_cons_of_neg _ (by simp [h]), List.find?_append,
          ihc, ihr]
        cases (preOrderFlatten item.childrenOf).find?
            (fun c => tok ∈ c.prefixesOf) <;>
          simp
termination_by ts => sizeOf ts
decreasing_by
  all_goals
    first
      | exact sizeOf_childrenOf_lt_cons _ _
      | exact sizeOf_tail_lt_cons _ _

/-- The pre-order flattening emits exactly `countNodes` entries: every node
of the forest exactly once. -/
theorem length_preOrderFlatten : ∀ ts : List Command,
    (preOrderFlatten ts).length = countNodes ts
  | [] => by simp [preOrderFlatten, countNodes]
  | c :: rest => by
      have ihc := length_preOrderFlatten c.childrenOf
      have ihr := length_preOrderFlatten rest
      rw [preOrderFlatten, countNodes]
      simp only [List.length_cons, List.length_append, ihc, ihr]
      omega
termination_by ts => sizeOf ts
decreasing_by
  all_goals
    first
      | exact sizeOf_childrenOf_lt_cons _ _
      | exact sizeOf_tail_lt_cons _ _

/-- Membership in the pre-order flattening is exactly occurrence in the
forest. -/
theorem mem_preOrderFlatten (c : Command) : ∀ ts : List Command,
    c ∈ preOrderFlatten ts ↔ OccursIn c ts
  | [] => by
      rw [preOrderFlatten]
      constructor
      · intro h
        exact absurd h (List.not_mem_nil c)
      · intro h
        cases h
  | d :: rest => by
      have ihc := mem_preOrderFlatten c d.childrenOf
      have ihr := mem_preOrderFlatten c rest
      rw [preOrderFlatten]
      simp only [List.mem_cons, List.mem_append]
      constructor
      · rintro (rfl | hc | hr)
        · exact .here rest
        · exact .child d rest (ihc.mp hc)
        · exact .there d rest (ihr.mp hr)
      · intro h
        cases h with
        | here _ => exact Or.inl rfl
        | there _ _ hr => exact Or.inr (Or.inr (ihr.mpr hr))
        | child _ _ hc => exact Or.inr (Or.inl (ihc.mpr hc))
termination_by ts => sizeOf ts
decreasing_by
  all_goals
    first
      | exact sizeOf_childrenOf_lt_cons _ _
      | exact sizeOf_tail_lt_cons _ _

end TreeLemmas

section SortLemmas

theorem insertScoredDesc_perm (x : Command × ℚ) (l : List (Command × ℚ)) :
    (insertScoredDesc x l).Perm (x :: l) := by
  induction l with
  | nil => simp [insertScoredDesc]
  | cons y ys ih =>
      rw [insertScoredDesc]
      by_cases h : x.2 < y.2
      · rw [if_pos h]
        exact (ih.cons y).trans (List.Perm.swap x y ys)
      · rw [if_neg h]

theorem sortScoredDesc_perm (l : List (Command × ℚ)) :
    (sortScoredDesc l).Perm l := by
  induction l with
  | nil => simp [sortScoredDesc]
  | cons x xs ih =>
      rw [sortScoredDesc]
      exact (insertScoredDesc_perm x (sortScoredDesc xs)).trans (ih.cons x)

theorem insertScoredDesc_pairwise (x : Command × ℚ) (l : List (Command × ℚ))
    (h : l.Pairwise (fun a b => b.2 ≤ a.2)) :
    (insertScoredDesc x l).Pairwise (fun a b => b.2 ≤ a.2) := by
  induction l with
  | nil => simp [insertScoredDesc]
  | cons y ys ih =>
      rw [List.pairwise_cons] at h
      obtain ⟨hy, hys⟩ := h
      rw [insertScoredDesc]
      by_cases hx : x.2 < y.2
      · rw [if_pos hx]
        refine List.pairwise_cons.mpr ⟨?_, ih hys⟩
        intro b hb
        have hb' : b ∈ x :: ys := (insertScoredDesc_perm x ys).mem_iff.mp hb
        rcases List.mem_cons.mp hb' with rfl | hbys
        · exact le_of_lt hx
        · exact hy b hbys
      · rw [if_neg hx]
        refine List.pairwise_cons.mpr ⟨?_, List.pairwise_cons.mpr ⟨hy, hys⟩⟩
        intro b hb
        rcases List.mem_cons.mp hb with rfl | hbys
        · exact le_of_not_lt hx
        · exact le_trans (hy b hbys) (le_of_not_lt hx)

theorem sortScoredDesc_pairwise (l : List (Command × ℚ)) :
    (sortScoredDesc l).Pairwise (fun a b => b.2 ≤ a.2) := by
  induction l with
  | nil => simp [sortScoredDesc]
  | cons x xs ih => exact insertScoredDesc_pairwise x _ ih

/-- Stability of the insertion step, expressed on equal-score slices: the
inserted entry lands in front of the equal-score block, and every other
equal-score slice is untouched. -/
theorem insertScoredDesc_filter (x : Command × ℚ) (l : List (Command × ℚ))
    (q : ℚ) :
    (insertScoredDesc x l).filter (fun p => p.2 = q) =
      if x.2 = q then x :: l.filter (fun p => p.2 = q)
      else l.filter (fun p => p.2 = q) := by
  induction l with
  | nil => simp [insertScoredDesc, List.filter_cons]
  | cons y ys ih =>
      rw [insertScoredDesc]
      by_cases h : x.2 < y.2
      · rw [if_pos h]
        rw [List.filter_cons, List.filter_cons, ih]
        by_cases hy : y.2 = q
        · have hx : ¬ x.2 = q := by
            intro hxq
            rw [hxq, hy] at h
            exact lt_irrefl q h
          simp [hy, hx]
        · by_cases hx : x.2 = q
          · simp [hy, hx]
          · simp [hy, hx]
      · rw [if_neg h]
        rw [List.filter_cons]
        by_cases hx : x.2 = q
        · rw [if_pos hx]
          simp [hx]
        · rw [if_neg hx]
          simp [hx]

/-- Stability of the full sort: every equal-score slice of the sorted list
equals the corresponding slice of the input, in input order. -/
theorem sortScoredDesc_filter (l : List (Command × ℚ)) (q : ℚ) :
    (sortScoredDesc l).filter (fun p => p.2 = q) =
      l.filter (fun p => p.2 = q) := by
  induction l with
  | nil => simp [sortScoredDesc]
  | cons x xs ih =>
      rw [sortScoredDesc, insertScoredDesc_filter, List.filter_cons]
      by_cases hx : x.2 = q
      · rw [if_pos hx, ih]
        simp [hx]
      · rw [if_neg hx, ih]
        simp [hx]

/-- Every element of the scored pipeline's output passed the threshold
filter and carries its item's `bestScore`. -/
theorem mem_commandScorePairs (cs : String → String → ℚ)
    (items : List Command) (query : String) (maxResults : Nat)
    (p : Command × ℚ)
    (hp : p ∈ commandScorePairs cs items query maxResults) :
    (1 : ℚ)/10 ≤ p.2 ∧ p.2 = bestScore cs p.1 query ∧ p.1 ∈ items := by
  rw [commandScorePairs] at hp
  have h1 : p ∈ sortScoredDesc
      ((items.map (fun item => (item, bestScore cs item query))).filter
        (fun sc => (1 : ℚ)/10 ≤ sc.2)) := List.mem_of_mem_take hp
  have h2 := (sortScoredDesc_perm _).mem_iff.mp h1
  have h3 := List.mem_filter.mp h2
  obtain ⟨hmem, hscore⟩ := h3
  obtain ⟨a, ha, hap⟩ := List.mem_map.mp hmem
  refine ⟨by simpa using hscore, ?_, ?_⟩
  · rw [← hap]
  · rw [← hap]
    exact ha

end SortLemmas

section MapLemmas


theorem mapSetAll_apply (m : String → Option Nat) (idx : Nat)
    (strs : List String) (q : String) :
    mapSetAll m idx strs q = if q ∈ strs then some idx else m q := by
  induction strs generalizing m with
  | nil => simp [mapSetAll]
  | cons s rest ih =>
      rw [mapSetAll, List.foldl_cons]
      have := ih (mapSet m s idx)
      rw [mapSetAll] at this
      rw [this, mapSet]
      by_cases hr : q ∈ rest
      · rw [if_pos hr, if_pos (List.mem_cons.mpr (Or.inr hr))]
      · rw [if_neg hr]
        by_cases hs : q = s
        · rw [if_pos hs, if_pos (List.mem_cons.mpr (Or.inl hs))]
        · rw [if_neg hs, if_neg (by simp [hs, hr])]

theorem foldl_enumFrom_apply (items : List Command) (n : Nat)
    (m : String → Option Nat) (q : String) :
    ((items.enumFrom n).foldl (fun m' e => mapSetAll m' e.1 (itemStrings e.2))
        m) q =
      match lastOwnerIdx items q with
      | some i => some (n + i)
      | none => m q := by
  induction items generalizing n m with
  | nil => simp [lastOwnerIdx]
  | cons c rest ih =>
      rw [List.enumFrom_cons, List.foldl_cons]
      rw [ih (n + 1) (mapSetAll m n (itemStrings c))]
      rw [lastOwnerIdx]
      cases h : lastOwnerIdx rest q with
      | some k =>
          simp only []
          congr 1
          omega
      | none =>
          simp only []
          rw [mapSetAll_apply]
          by_cases hc : q ∈ itemStrings c
          · simp [hc]
          · simp [hc]

/-- The overwriting `Map.set` semantics: the built string-to-item map sends
each string to the position of its last owner in input order. -/
theorem stringToItemMap_eq_lastOwnerIdx (items : List Command) (q : String) :
    stringToItemMap items q = lastOwnerIdx items q := by
  rw [stringToItemMap, show items.enum = items.enumFrom 0 from rfl,
    foldl_enumFrom_apply items 0 (fun _ => none) q]
  cases hl : lastOwnerIdx items q <;> simp

/-- When no binding exists, no item owns the string. -/
theorem lastOwnerIdx_none (items : List Command) (q : String)
    (h : lastOwnerIdx items q = none) :
    ∀ (j : Nat) (jt : Command), items[j]? = some jt → q ∉ itemStrings jt := by
  induction items with
  | nil => intro j jt hj; simp at hj
  | cons c rest ih =>
      rw [lastOwnerIdx] at h
      cases hr : lastOwnerIdx rest q with
      | some k => rw [hr] at h; simp at h
      | none =>
          rw [hr] at h
          by_cases hc : q ∈ itemStrings c
          · rw [if_pos hc] at h; simp at h
          · rw [if_neg hc] at h
            intro j jt hj
            cases j with
            | zero =>
                rw [List.getElem?_cons_zero] at hj
                cases hj
                exact hc
            | succ j' =>
                rw [List.getElem?_cons_succ] at hj
                exact ih hr j' jt hj

/-- A binding points at an owning item, and nothing after it owns the
string: last-seen wins. -/
theorem lastOwnerIdx_some (items : List Command) (q : String) (i : Nat)
    (h : lastOwnerIdx items q = some i) :
    ∃ it, items[i]? = some it ∧ q ∈ itemStrings it ∧
      ∀ (j : Nat) (jt : Command), i < j → items[j]? = some jt →
        q ∉ itemStrings jt := by
  induction items generalizing i with
  | nil => rw [lastOwnerIdx] at h; cases h
  | cons c rest ih =>
      rw [lastOwnerIdx] at h
      cases hr : lastOwnerIdx rest q with
      | some k =>
          rw [hr] at h
          cases h
          obtain ⟨it, hget, howns, hafter⟩ := ih k hr
          refine ⟨it, by simpa using hget, howns, ?_⟩
          intro j jt hlt hj
          cases j with
          | zero => omega
          | succ j' =>
              rw [List.getElem?_cons_succ] at hj
              exact hafter j' jt (by omega) hj
      | none =>
          rw [hr] at h
          by_cases hc : q ∈ itemStrings c
          · rw [if_pos hc] at h
            cases h
            refine ⟨c, List.getElem?_cons_zero, hc, ?_⟩
            intro j jt hlt hj
            cases j with
            | zero => omega
            | succ j' =>
                rw [List.getElem?_cons_succ] at hj
                exact lastOwnerIdx_none rest q hr j' jt hj
          · rw [if_neg hc] at h
            cases h

end MapLemmas


/-- C1: `setState` invokes `notifySubscribers` on every call: the shallow
merge `{ ...state, ...partial }` allocates a fresh object, so the
`oldState !== state` guard always passes — even for the empty partial,
whose merged state is structurally identical to the old one.  This
contradicts the source's own comment "Only notify subscribers if something
actually changed": a no-op update does notify. -/
theorem claim_C1_setState_always_notifies :
    ∀ (c : StoreCell) (p : PartialState),
      (setState p c).2 = true ∧
      (setState emptyPartialState c).1.state = c.state := by
  intro c p
  refine ⟨setState_snd p c, ?_⟩
  simp [setState, mergeState_empty]

/-- C2 counterexample: a burst of two synchronous `setState` calls in one
task, observed by a single subscriber: after the microtask queue drains the
subscriber's callback has run twice, not once — each `setState` queued its
own notification pass. -/
theorem claim_C2_counterexample :
    exWorld.subscriberCount = 1 ∧
    (drainMicrotasks
        (setStateBurst [emptyPartialState, emptyPartialState] exWorld)).callbackRuns
      = 2 := by
  constructor
  · rfl
  · rfl

/-- C2 amended: store notification is deferred by one microtask, but not
coalesced: a burst of `k` synchronous `setState` calls within one task
queues `k` separate notification passes, so each live subscriber's callback
runs `k` times once the microtasks drain (React's `unstable_batchedUpdates`
only batches re-renders within each pass). -/
theorem claim_C2_burst_runs :
    ∀ (ps : List PartialState) (w : NotifyWorld),
      (drainMicrotasks (setStateBurst ps w)).callbackRuns =
        w.callbackRuns + (w.queuedPasses + ps.length) * w.subscriberCount := by
  intro ps w
  obtain ⟨h1, h2, h3⟩ := setStateBurst_spec ps w
  simp [drainMicrotasks, h1, h2, h3]

/-- C3 counterexample: two items share the searchable name `"x"`; the
string-to-item map binds `"x"` to the second (last) item, and the fuse
mapping-back step returns that second item — not the first as claimed. -/
theorem claim_C3_counterexample :
    cmdA.name = "x" ∧ cmdB.name = "x" ∧ cmdA.id = "a" ∧ cmdB.id = "b" ∧
    stringToItemMap [cmdA, cmdB] "x" = some 1 ∧
    (fuseMapBack [cmdA, cmdB] [("x", 1/2)] []).map (fun p => p.1.id) = ["b"] := by
  refine ⟨rfl, rfl, rfl, rfl, ?_, ?_⟩
  · rfl
  · rfl

/-- C3 amended: when several items share a searchable string, the
overwriting `Map.set` calls make the LAST such item in input order own the
string: the map binds the string to an owning position after which no item
owns it, and an absent binding means no item owns the string at all. -/
theorem claim_C3_last_seen_wins :
    ∀ (items : List Command) (q : String),
      (∀ i, stringToItemMap items q = some i →
        ∃ it, items[i]? = some it ∧ q ∈ itemStrings it ∧
          ∀ (j : Nat) (jt : Command), i < j → items[j]? = some jt →
            q ∉ itemStrings jt) ∧
      (stringToItemMap items q = none →
        ∀ (j : Nat) (jt : Command), items[j]? = some jt →
          q ∉ itemStrings jt) := by
  intro items q
  constructor
  · intro i hi
    rw [stringToItemMap_eq_lastOwnerIdx] at hi
    exact lastOwnerIdx_some items q i hi
  · intro hn
    rw [stringToItemMap_eq_lastOwnerIdx] at hn
    exact lastOwnerIdx_none items q hn

/-- C3 amended, witness: instantiating the last-seen-wins theorem at the
shared string `"x"` of the two-item fixture shows the owner is `cmdB`. -/
theorem claim_C3_last_seen_wins_witness : "x" ∈ itemStrings cmdB := by
  obtain ⟨it, hget, howns, -⟩ :=
    (claim_C3_last_seen_wins [cmdA, cmdB] "x").1 1 rfl
  have hit : it = cmdB := by
    rw [List.getElem?_cons_succ, List.getElem?_cons_zero] at hget
    cases hget
    rfl
  rw [← hit]
  exact howns

/-- C5: `navigate` then `goBack` succeeds, restores the exact prior view
and the pre-navigate history; `goBack` on an empty history fails and leaves
the state untouched. -/
theorem claim_C5_navigate_goBack :
    ∀ (s : CommandState) (v : ViewState),
      (goBack (navigate v s)).1 = true ∧
      (goBack (navigate v s)).2.view = s.view ∧
      (goBack (navigate v s)).2.history = s.history ∧
      (s.history = [] → goBack s = (false, s)) := by
  intro s v
  have hnav : (navigate v s).history = s.history ++ [s.view] := by
    simp [navigate, mergeState]
  refine ⟨?_, ?_, ?_, ?_⟩
  · rw [goBack, hnav]
    simp [List.getLast?_concat]
  · rw [goBack, hnav]
    simp [List.getLast?_concat, mergeState]
  · rw [goBack, hnav]
    simp [List.getLast?_concat, mergeState]
  · intro h
    rw [goBack, h]
    simp

/-- C5 witness: the freshly created store state has empty history, and
`goBack` on it fails without changing anything. -/
theorem claim_C5_witness : exState.history = [] ∧ goBack exState = (false, exState) :=
  ⟨rfl, (claim_C5_navigate_goBack exState exView).2.2.2 rfl⟩

/-- C6 counterexample: `init` stores the loaded persisted list verbatim, so
a persisted list with a duplicate id survives into the state, violating the
claimed invariant. -/
theorem claim_C6_counterexample :
    (initStore none ["a", "a"] true exState).recentCommands = ["a", "a"] ∧
    ¬ (initStore none ["a", "a"] true exState).recentCommands.Nodup := by
  constructor
  · rfl
  · intro h
    rw [initStore_recentCommands_enabled] at h
    simp at h

/-- C6 amended: `addRecentCommand` unconditionally bounds the list at 10,
keeps it duplicate-free when it was, puts the id at the front exactly once,
and is idempotent; eleven distinct adds leave exactly the ten most recent,
most-recent-first.  `init`, however, stores the loaded persisted list
verbatim, so it preserves the invariant only when the loaded list itself
already satisfies it. -/
theorem claim_C6_recent_invariant :
    ∀ (s : CommandState) (id : String) (saved : Option SearchAlgorithm)
      (loaded : List String) (enable : Bool),
      (addRecentCommand id s).recentCommands.length ≤ 10 ∧
      (s.recentCommands.Nodup → (addRecentCommand id s).recentCommands.Nodup) ∧
      (addRecentCommand id s).recentCommands.head? = some id ∧
      (addRecentCommand id s).recentCommands.count id = 1 ∧
      (addRecentCommand id (addRecentCommand id s)).recentCommands =
        (addRecentCommand id s).recentCommands ∧
      ((["c1", "c2", "c3", "c4", "c5", "c6", "c7", "c8", "c9", "c10",
          "c11"].foldl (fun st i => addRecentCommand i st) exState).recentCommands =
        ["c11", "c10", "c9", "c8", "c7", "c6", "c5", "c4", "c3", "c2"]) ∧
      (s.recentCommands.Nodup → s.recentCommands.length ≤ 10 →
        loaded.Nodup → loaded.length ≤ 10 →
        ((initStore saved loaded enable s).recentCommands.Nodup ∧
         (initStore saved loaded enable s).recentCommands.length ≤ 10)) := by
  intro s id saved loaded enable
  refine ⟨recent_length_le id s, recent_nodup id s, recent_head id s,
    recent_count id s, recent_idem id s, by decide, ?_⟩
  intro hs1 hs2 hl1 hl2
  cases enable
  · rw [initStore_recentCommands_disabled]
    exact ⟨hs1, hs2⟩
  · rw [initStore_recentCommands_enabled]
    exact ⟨hl1, hl2⟩

/-- C6 amended, witness: a valid loaded list stays valid through `init`,
and an add at the fresh state keeps the invariant. -/
theorem claim_C6_witness :
    (initStore none ["a"] true exState).recentCommands.Nodup ∧
    (addRecentCommand "z" exState).recentCommands.length ≤ 10 := by
  have h := claim_C6_recent_invariant exState "z" none ["a"] true
  exact ⟨(h.2.2.2.2.2.2 (by decide) (by decide) (by decide) (by decide)).1, h.1⟩

/-- C9: the tree utilities agree: the source id search equals `find?` over
the source flattening (the first flattened node with the id); the
flattening is the canonical pre-order traversal (parent first, then its
children's flattening, then the later siblings), it has exactly one entry
per node of the forest, and its members are exactly the nodes occurring in
the forest. -/
theorem claim_C9_flatten_find :
    ∀ (ts : List Command) (i : String) (c : Command),
      findNavigableById i ts = (flattenNavigables ts).find? (fun d => d.id = i) ∧
      flattenNavigables ts = preOrderFlatten ts ∧
      (flattenNavigables ts).length = countNodes ts ∧
      (c ∈ flattenNavigables ts ↔ OccursIn c ts) := by
  intro ts i c
  rw [flattenNavigables_eq_preOrder]
  exact ⟨findNavigableById_eq_find? i ts, rfl, length_preOrderFlatten ts,
    mem_preOrderFlatten c ts⟩

/-- C10: when a found action command's `execute` throws or rejects,
`selectCommand` returns normally (the error is swallowed by the `catch`),
`onClose` is not invoked, and the recent-commands update made before the
execution attempt stays in place, with the id at the front. -/
theorem claim_C10_failed_execute :
    ∀ (tree : List Command) (env : String → ExecResult) (s : CommandState)
      (id : String) (cmd : Command),
      findCommandById id tree = some cmd → cmd.ctype = .action →
      env id = .throws →
      selectCommand tree env true id s = (addRecentCommand id s, false) ∧
      (selectCommand tree env true id s).1.recentCommands.head? = some id := by
  intro tree env s id cmd hfind htype henv
  have heq : selectCommand tree env true id s = (addRecentCommand id s, false) := by
    rw [selectCommand, hfind]
    simp [htype, henv]
  refine ⟨heq, ?_⟩
  rw [heq]
  exact recent_head id s

/-- C10 witness: the concrete one-action tree with a throwing `execute`. -/
theorem claim_C10_witness :
    selectCommand [cmdA] (fun _ => .throws) true "a" exState =
      (addRecentCommand "a" exState, false) :=
  (claim_C10_failed_execute [cmdA] (fun _ => .throws) exState "a" cmdA
    (by simp [findCommandById, cmdA, Command.id]) rfl rfl).1

/-- C4: the lexical-score algorithm returns only items whose best field
score (max over name, keywords, and — for actions and portals — prefixes)
reaches the 0.1 threshold; the result is sorted by non-increasing best
score; at most `maxResults` items are returned; and every equal-score slice
of the scored pipeline is an initial segment of the corresponding slice of
the threshold-filtered input, i.e. ties are broken by input order (stable
sort). -/
theorem claim_C4_command_score_contract :
    ∀ (cs : String → String → ℚ) (items : List Command) (query : String)
      (maxResults : Nat), query ≠ "" →
      (∀ it ∈ searchWithCommandScore cs items query maxResults,
        (1 : ℚ)/10 ≤ bestScore cs it query) ∧
      (searchWithCommandScore cs items query maxResults).Pairwise
        (fun a b => bestScore cs b query ≤ bestScore cs a query) ∧
      (searchWithCommandScore cs items query maxResults).length ≤ maxResults ∧
      (∀ q' : ℚ, ∃ t,
        (commandScorePairs cs items query maxResults).filter
            (fun p => p.2 = q') ++ t =
          ((items.map (fun item => (item, bestScore cs item query))).filter
            (fun sc => (1 : ℚ)/10 ≤ sc.2)).filter (fun p => p.2 = q')) := by
  intro cs items query maxResults hq
  refine ⟨?_, ?_, ?_, ?_⟩
  · intro it hit
    rw [searchWithCommandScore] at hit
    obtain ⟨p, hp, hpe⟩ := List.mem_map.mp hit
    obtain ⟨hth, hbs, -⟩ :=
      mem_commandScorePairs cs items query maxResults p hp
    rw [← hpe, ← hbs]
    exact hth
  · rw [searchWithCommandScore]
    refine List.pairwise_map.mpr ?_
    have hsorted : (commandScorePairs cs items query maxResults).Pairwise
        (fun a b => b.2 ≤ a.2) := by
      rw [commandScorePairs]
      exact (sortScoredDesc_pairwise _).sublist (List.take_sublist _ _)
    refine hsorted.imp_of_mem ?_
    intro a b ha hb hr
    obtain ⟨-, hba, -⟩ := mem_commandScorePairs cs items query maxResults a ha
    obtain ⟨-, hbb, -⟩ := mem_commandScorePairs cs items query maxResults b hb
    rw [← hba, ← hbb]
    exact hr
  · rw [searchWithCommandScore, List.length_map, commandScorePairs]
    exact List.length_take_le maxResults _
  · intro q'
    rw [commandScorePairs]
    refine ⟨((sortScoredDesc
        ((items.map (fun item => (item, bestScore cs item query))).filter
          (fun sc => (1 : ℚ)/10 ≤ sc.2))).drop maxResults).filter
            (fun p => p.2 = q'), ?_⟩
    rw [← List.filter_append, List.take_append_drop, sortScoredDesc_filter]

/-- C4 witness: the contract applied at a constant scorer, a one-item list
and the non-empty query `"q"`. -/
theorem claim_C4_witness :
    ("q" ≠ "") ∧
    (searchWithCommandScore (fun _ _ => 1) [cmdA] "q" 5).length ≤ 5 :=
  ⟨by decide,
    (claim_C4_command_score_contract (fun _ _ => 1) [cmdA] "q" 5
      (by decide)).2.2.1⟩

/-- C7: per query change the prefix detector (i) consumes and clears the
one-shot back flag, skipping all processing; (ii) skips a query equal to
the last processed one; (iii) otherwise records the query as processed and
fires `selectCommand` — passing `onClose` through — exactly when the query
ends with a trailing space and the trimmed token is contained in the
prefixes of some node of the tree, taking the first such node in pre-order;
in every other case nothing fires. -/
theorem claim_C7_prefix_trigger :
    ∀ (α : Type) (back : Option Bool) (lastQuery query : String)
      (tree : List Command) (onClose : α),
      (back = some true →
        prefixTriggerStep back lastQuery query tree onClose =
          ⟨true, lastQuery, none⟩) ∧
      (back ≠ some true → query = lastQuery →
        prefixTriggerStep back lastQuery query tree onClose =
          ⟨false, lastQuery, none⟩) ∧
      (back ≠ some true → query ≠ lastQuery →
        prefixTriggerStep back lastQuery query tree onClose =
          ⟨false, query,
            if endsWithSpace query ∧ jsTrim query ≠ "" then
              ((preOrderFlatten tree).find?
                  (fun c => jsTrim query ∈ c.prefixesOf)).map
                (fun cmd => (cmd.id, onClose))
            else none⟩) := by
  intro α back lastQuery query tree onClose
  refine ⟨?_, ?_, ?_⟩
  · intro hb
    simp only [prefixTriggerStep, if_pos hb]
  · intro hb hq
    simp only [prefixTriggerStep, if_neg hb, if_pos hq]
  · intro hb hq
    simp only [prefixTriggerStep, if_neg hb, if_neg hq]
    by_cases he : endsWithSpace query
    · have h0 : ¬ (query = "" ∨ ¬ endsWithSpace query) := by
        rintro (h | h)
        · rw [h] at he
          exact absurd he (by decide)
        · exact h he
      rw [if_neg h0]
      by_cases ht : jsTrim query = ""
      · simp [ht, he]
      · simp only [if_neg ht]
        rw [findCommandForShortcut_eq_find?]
        cases hf : (preOrderFlatten tree).find?
            (fun c => jsTrim query ∈ c.prefixesOf) with
        | none => simp [he, ht]
        | some cmd => simp [he, ht]
    · rw [if_pos (Or.inr he)]
      simp [he]

/-- C7 witness: typing `!calc ` (trailing space) with no pending back flag
and a fresh last-query fires the calculator portal's id, with `onClose`
passed through. -/
theorem claim_C7_witness :
    prefixTriggerStep (α := Nat) none "" "!calc " exTree 7 =
      ⟨false, "!calc ", some ("calculator", 7)⟩ := by
  have h := (claim_C7_prefix_trigger Nat none "" "!calc " exTree 7).2.2
    (by simp) (by decide)
  rw [h]
  have hflat : preOrderFlatten exTree =
      [Command.node "dev-tools" "Dev Tools" [] .category [] none [devAction],
        devAction, calcPortal] := by
    simp [preOrderFlatten, exTree, devAction, calcPortal, Command.childrenOf]
  rw [hflat]
  decide

/-- C8 counterexample: with no current selection (the `findIndex` sentinel
`-1`), move-up with `loop=false` over a non-empty 3-item list computes
`-1`, which does not lie in `[0, 2]` — refuting the claim's "in every case
the computed new index lies within [0, length-1]". -/
theorem claim_C8_counterexample :
    calculateNextIndex (-1) .arrowUp 3 false = -1 ∧
    ¬ (0 ≤ calculateNextIndex (-1) .arrowUp 3 false) := by
  constructor
  · decide
  · decide

/-- Move-down at the last index without loop: the handler's
`newIndex === currentIndex` guard fires, so the run is a no-op. -/
theorem handler_noop_down_last (s : CommandState) (its : List ItemEntry)
    (a : String)
    (his : s.items = some its) (hact : s.activeId = some a) (ha : a ≠ "")
    (hfind : its.findIdx? (fun item => item.id = a) = some (its.length - 1))
    (hne : its ≠ []) (hloop : s.loop = false) :
    handleGlobalKeyDown false .arrowDown s = .noop := by
  have hlen : 1 ≤ its.length := by
    cases its with
    | nil => exact absurd rfl hne
    | cons _ _ => simp
  simp only [handleGlobalKeyDown, his, hact, hloop, hfind, Option.getD_some]
  rw [if_neg (by simp), if_neg (by simp [isNavigationKey]), if_neg (by omega)]
  simp only [if_pos ha]
  rw [if_neg (by simp)]
  have hcalc : calculateNextIndex ((its.length - 1 : Nat) : Int) .arrowDown
      its.length false = ((its.length - 1 : Nat) : Int) := by
    simp only [calculateNextIndex]
    split_ifs <;> first | rfl | omega | simp_all
  rw [if_pos (Or.inl hcalc)]

/-- Move-up at index 0 without loop: a no-op for the same reason. -/
theorem handler_noop_up_first (s : CommandState) (its : List ItemEntry)
    (a : String)
    (his : s.items = some its) (hact : s.activeId = some a) (ha : a ≠ "")
    (hfind : its.findIdx? (fun item => item.id = a) = some 0)
    (hne : its ≠ []) (hloop : s.loop = false) :
    handleGlobalKeyDown false .arrowUp s = .noop := by
  simp only [handleGlobalKeyDown, his, hact, hloop, hfind, Option.getD_some]
  rw [if_neg (by simp), if_neg (by simp [isNavigationKey]),
    if_neg (by simp [List.length_eq_zero, hne])]
  simp only [if_pos ha]
  rw [if_neg (by simp)]
  have hcalc : calculateNextIndex ((0 : Nat) : Int) .arrowUp
      its.length false = ((0 : Nat) : Int) := by
    simp only [calculateNextIndex]
    split_ifs <;> first | rfl | omega | simp_all
  rw [if_pos (Or.inl hcalc)]

/-- Move-up with no current selection and no loop: the computed index is
the sentinel `-1` and the handler rejects it. -/
theorem handler_noop_up_sentinel (s : CommandState) (its : List ItemEntry)
    (his : s.items = some its) (hne : its ≠ []) (hact : s.activeId = none)
    (hloop : s.loop = false) :
    handleGlobalKeyDown false .arrowUp s = .noop := by
  simp only [handleGlobalKeyDown, his, hact, hloop, Option.getD_some]
  rw [if_neg (by simp), if_neg (by simp [isNavigationKey]),
    if_neg (by simp [List.length_eq_zero, hne])]
  rw [if_neg (by simp)]
  have hcalc : calculateNextIndex (-1) .arrowUp its.length false = -1 := by
    simp only [calculateNextIndex]
    split_ifs <;> first | rfl | omega | simp_all
  rw [if_pos (Or.inl hcalc)]

/-- C8 amended: move-down at the last index is a no-op without loop and the
computed index wraps to 0 with loop (symmetrically move-up at index 0 is a
no-op without loop and wraps to length-1 with loop); the computed index
lies within [0, length-1] whenever the current index does, and also from
the `findIndex` sentinel `-1` when the key is down or loop is on; in the
one remaining case — move-up from the sentinel without loop — the computed
index is `-1`, outside the range, and the handler's `newIndex < 0` guard
makes the run a no-op (no `setState`, hence no notification). -/
theorem claim_C8_keyboard_navigation :
    ∀ (s : CommandState) (its : List ItemEntry) (a : String) (n : Nat)
      (cur : Int) (key : KeyInput) (loop : Bool),
      (s.items = some its → s.activeId = some a → a ≠ "" →
        its.findIdx? (fun item => item.id = a) = some (its.length - 1) →
        its ≠ [] → s.loop = false →
        handleGlobalKeyDown false .arrowDown s = .noop) ∧
      (1 ≤ n → calculateNextIndex ((n : Int) - 1) .arrowDown n true = 0) ∧
      (s.items = some its → s.activeId = some a → a ≠ "" →
        its.findIdx? (fun item => item.id = a) = some 0 →
        its ≠ [] → s.loop = false →
        handleGlobalKeyDown false .arrowUp s = .noop) ∧
      (calculateNextIndex 0 .arrowUp n true = (n : Int) - 1) ∧
      (1 ≤ n → 0 ≤ cur → cur < (n : Int) →
        (key = .arrowDown ∨ key = .arrowUp) →
        0 ≤ calculateNextIndex cur key n loop ∧
        calculateNextIndex cur key n loop < (n : Int)) ∧
      (1 ≤ n → (key = .arrowDown ∨ loop = true) →
        (key = .arrowDown ∨ key = .arrowUp) →
        0 ≤ calculateNextIndex (-1) key n loop ∧
        calculateNextIndex (-1) key n loop < (n : Int)) ∧
      (calculateNextIndex (-1) .arrowUp n false = -1) ∧
      (s.items = some its → its ≠ [] → s.activeId = none → s.loop = false →
        handleGlobalKeyDown false .arrowUp s = .noop) := by
  intro s its a n cur key loop
  refine ⟨handler_noop_down_last s its a, ?_, handler_noop_up_first s its a,
    ?_, ?_, ?_, ?_, handler_noop_up_sentinel s its⟩
  · intro hn
    simp only [calculateNextIndex]
    split_ifs <;> first | rfl | omega
  · simp only [calculateNextIndex]
    split_ifs <;> first | rfl | omega | simp_all
  · intro hn hc0 hcn hk
    rcases hk with rfl | rfl <;>
      (simp only [calculateNextIndex]; split_ifs <;> omega)
  · intro hn hdl hk
    rcases hk with rfl | rfl
    · simp only [calculateNextIndex]
      split_ifs <;> omega
    · rcases hdl with h | h
      · exact absurd h (by simp)
      · subst h
        simp only [calculateNextIndex]
        split_ifs <;> omega
  · simp only [calculateNextIndex]
    split_ifs <;> first | rfl | omega | simp_all


/-- C8 amended, witness: move-down at the last index of the concrete
two-item state with `loop=false` is a no-op. -/
theorem claim_C8_witness :
    handleGlobalKeyDown false .arrowDown exNavState = .noop :=
  (claim_C8_keyboard_navigation exNavState [⟨"i1", 0⟩, ⟨"i2", 1⟩] "i2" 3 0
    .arrowDown false).1 rfl rfl (by decide) (by decide) (by decide) rfl

end BetterCmdk
